import Mathlib

/-!
# Verification of the distillation-curve interconversion engine

This file gives a shallow embedding of the core conversion engine of the
Distillation-Curves-Interconversion repository (`bp_conversions.py`, class
`Oil`) and proves or refutes the frozen specification claims about it.

Temperatures are modelled as real numbers, Python's `**` on positive reals
as `Real.rpow`, Python lists of `[vol, temp]` pairs as `List (ℝ × ℝ)`, and
`scipy.interpolate.PchipInterpolator` by the published PCHIP algorithm that
scipy implements (Fritsch–Carlson weighted-harmonic-mean derivatives with
scipy's one-sided edge formula, piecewise cubic Hermite evaluation with
boundary-segment extrapolation).
-/

namespace BpConversions

/-! ## Temperature unit converter (`Oil.convert_temperature`) -/

/-- Python's `str.upper()` restricted to the character sets the engine uses:
uppercase every character (`Char.toUpper` maps `a`–`z` to `A`–`Z` and leaves
everything else, e.g. `°`, unchanged — exactly `str.upper`'s behaviour on the
ASCII unit and family strings involved). -/
def pyUpper (s : String) : String :=
  ⟨s.data.map Char.toUpper⟩

/-- The alias table `unit_map` of `convert_temperature`: canonical unit for an
(already upper-cased) unit string, `none` when unrecognized. -/
def unit_map (s : String) : Option String :=
  if s = "C" ∨ s = "°C" ∨ s = "CELSIUS" ∨ s = "DEG C" then some "C"
  else if s = "K" ∨ s = "KELVIN" then some "K"
  else if s = "F" ∨ s = "°F" ∨ s = "FAHRENHEIT" then some "F"
  else if s = "R" ∨ s = "°R" ∨ s = "RANKINE" then some "R"
  else none

/-- Lookup `unit_map.get(unit.upper(), None)` — canonicalize a raw unit string. -/
def unitCanon (s : String) : Option String :=
  unit_map (pyUpper s)

/-- First pivot of `convert_temperature`: canonical unit to Celsius.
The final `else` branch is unreachable for canonicalized units. -/
noncomputable def toCelsius (u : String) (value : ℝ) : ℝ :=
  if u = "C" then value
  else if u = "K" then value - 273.15
  else if u = "F" then (value - 32) * 5.0 / 9.0
  else if u = "R" then (value - 491.67) * 5.0 / 9.0
  else 0

/-- Second pivot of `convert_temperature`: Celsius to canonical unit.
The final `else` branch is unreachable for canonicalized units. -/
noncomputable def fromCelsius (u : String) (celsius : ℝ) : ℝ :=
  if u = "C" then celsius
  else if u = "K" then celsius + 273.15
  else if u = "F" then celsius * 9.0 / 5.0 + 32
  else if u = "R" then (celsius + 273.15) * 9.0 / 5.0
  else 0

/-- Method `Oil.convert_temperature(value, from_unit, to_unit)`: canonicalize both
units (raising, i.e. `none`, on an unknown one), shortcut when they agree,
otherwise pivot through Celsius. -/
noncomputable def convert_temperature (value : ℝ) (from_unit to_unit : String) :
    Option ℝ :=
  match unitCanon from_unit, unitCanon to_unit with
  | some f, some t => if f = t then some value else some (fromCelsius t (toCelsius f value))
  | _, _ => none

/-- The round trip `convert(convert(x, A, B), B, A)` of spec §8. -/
noncomputable def convert_roundTrip (x : ℝ) (A B : String) : Option ℝ :=
  (convert_temperature x A B).bind fun y => convert_temperature y B A

/-- Celsius → Fahrenheit as the engine computes it (`convert_temperature(t, 'C', 'F')`). -/
noncomputable def CtoF (t : ℝ) : ℝ := t * 9.0 / 5.0 + 32

/-- Fahrenheit → Celsius as the engine computes it (`convert_temperature(t, 'F', 'C')`). -/
noncomputable def FtoC (t : ℝ) : ℝ := (t - 32) * 5.0 / 9.0

/-- Celsius → Rankine as the engine computes it (`convert_temperature(t, 'C', 'R')`). -/
noncomputable def CtoR (t : ℝ) : ℝ := (t + 273.15) * 9.0 / 5.0

/-- Rankine → Celsius as the engine computes it (`convert_temperature(t, 'R', 'C')`). -/
noncomputable def RtoC (t : ℝ) : ℝ := (t - 491.67) * 5.0 / 9.0

/-! ## Family-tag dispatch of `Oil.__init__` -/

/-- The family tags accepted by `Oil.__init__`: the dispatch compares
`input_type.upper()` against `'D86'`, then `['D2887', 'SIMDIS']`, then
`'TBP'`, and raises `ValueError` otherwise. -/
def familyOk (input_type : String) : Bool :=
  pyUpper input_type == "D86" || pyUpper input_type == "D2887" ||
    pyUpper input_type == "SIMDIS" || pyUpper input_type == "TBP"

/-! ## `scipy.interpolate.PchipInterpolator`

The repository builds every curve with scipy's `PchipInterpolator`.  The
model below follows scipy's algorithm: secant slopes, Fritsch–Carlson
weighted-harmonic-mean interior derivatives (`_find_derivatives`), the
one-sided `_edge_case` endpoint derivatives, and piecewise cubic Hermite
evaluation where out-of-range arguments extrapolate with the boundary
segment's cubic. -/

/-- Function `np.sign` on reals. -/
noncomputable def sgn (x : ℝ) : ℝ :=
  if x < 0 then -1 else if x = 0 then 0 else 1

/-- Knot spacing `hk[k] = x[k+1] - x[k]`. -/
noncomputable def hseg (xs : List ℝ) (k : ℕ) : ℝ :=
  xs.getD (k + 1) 0 - xs.getD k 0

/-- Secant slope `mk[k] = (y[k+1] - y[k]) / hk[k]`. -/
noncomputable def mslope (xs ys : List ℝ) (k : ℕ) : ℝ :=
  (ys.getD (k + 1) 0 - ys.getD k 0) / hseg xs k

/-- scipy `PchipInterpolator._edge_case(h0, h1, m0, m1)`: the one-sided
three-point derivative estimate, zeroed when its sign disagrees with the
first slope, clipped to `3*m0` when the two slopes disagree in sign and the
estimate is too large. -/
noncomputable def edgeDeriv (h0 h1 m0 m1 : ℝ) : ℝ :=
  let d := ((2 * h0 + h1) * m0 - h0 * m1) / (h0 + h1)
  if sgn d ≠ sgn m0 then 0
  else if sgn m0 ≠ sgn m1 ∧ 3 * |m0| < |d| then 3 * m0
  else d

/-- Interior derivative of scipy `_find_derivatives`: zero when the adjacent
slopes differ in sign or one vanishes, otherwise the weighted harmonic mean
`(w1 + w2) / (w1/mk[k-1] + w2/mk[k])`. -/
noncomputable def interiorDeriv (hkm hk mkm mk : ℝ) : ℝ :=
  if sgn mk ≠ sgn mkm ∨ mk = 0 ∨ mkm = 0 then 0
  else
    let w1 := 2 * hk + hkm
    let w2 := hk + 2 * hkm
    (w1 + w2) / (w1 / mkm + w2 / mk)

/-- scipy `_find_derivatives`: the Hermite derivative at knot `k` of the data
`(xs, ys)`.  Two-sample data gets the secant slope at both ends (a straight
line); otherwise the endpoints use `_edge_case` and interior knots the
weighted harmonic mean. -/
noncomputable def pchipDeriv (xs ys : List ℝ) (k : ℕ) : ℝ :=
  let n := xs.length
  if n = 2 then mslope xs ys 0
  else if k = 0 then
    edgeDeriv (hseg xs 0) (hseg xs 1) (mslope xs ys 0) (mslope xs ys 1)
  else if k = n - 1 then
    edgeDeriv (hseg xs (n - 2)) (hseg xs (n - 3)) (mslope xs ys (n - 2)) (mslope xs ys (n - 3))
  else interiorDeriv (hseg xs (k - 1)) (hseg xs k) (mslope xs ys (k - 1)) (mslope xs ys k)

/-- Index of the cubic segment used to evaluate at `v`: the result of
`searchsorted` clipped to `[0, n-2]`, so that arguments outside the knot
range are extrapolated with the first/last segment's polynomial
(scipy's default `extrapolate=True`). -/
noncomputable def findSeg (xs : List ℝ) (v : ℝ) : ℕ :=
  match xs with
  | _ :: x1 :: x2 :: rest =>
    if v < x1 then 0 else findSeg (x1 :: x2 :: rest) v + 1
  | _ => 0

/-- The cubic Hermite polynomial on the segment `[xa, xb]` with endpoint
values `ya, yb` and endpoint derivatives `da, db`, evaluated at `v` (also
outside `[xa, xb]`: this is the polynomial scipy extrapolates with). -/
noncomputable def hermite (xa ya da xb yb db v : ℝ) : ℝ :=
  let h := xb - xa
  let t := (v - xa) / h
  ya * (2 * t ^ 3 - 3 * t ^ 2 + 1) + h * da * (t ^ 3 - 2 * t ^ 2 + t) +
    yb * (-2 * t ^ 3 + 3 * t ^ 2) + h * db * (t ^ 3 - t ^ 2)

/-- Evaluation `PchipInterpolator(xs, ys)(v)`. -/
noncomputable def pchipEval (xs ys : List ℝ) (v : ℝ) : ℝ :=
  let i := findSeg xs v
  hermite (xs.getD i 0) (ys.getD i 0) (pchipDeriv xs ys i)
    (xs.getD (i + 1) 0) (ys.getD (i + 1) 0) (pchipDeriv xs ys (i + 1)) v

/-- A constructed `PchipInterpolator` object: its knot vector `.x` and the
knot values. -/
structure Pchip where
  xs : List ℝ
  ys : List ℝ

/-- Evaluate a `Pchip` object. -/
noncomputable def Pchip.eval (p : Pchip) (v : ℝ) : ℝ :=
  pchipEval p.xs p.ys v

/-- Construction `PchipInterpolator([p[0] for p in pts], [p[1] for p in pts])`. -/
def Pchip.ofPoints (pts : List (ℝ × ℝ)) : Pchip :=
  ⟨pts.map Prod.fst, pts.map Prod.snd⟩

/-- Strictly increasing list of reals (the `PchipInterpolator` requirement on
`x`, and the spec's well-formedness requirement on curve coordinates). -/
def StrIncr (xs : List ℝ) : Prop :=
  xs.Chain' (· < ·)

/-- scipy `PchipInterpolator`'s input contract: at least two samples with
strictly increasing `x` (anything else raises, surfacing as the spec's
`InvalidCurveInput`). -/
def PchipOk (pts : List (ℝ × ℝ)) : Prop :=
  2 ≤ pts.length ∧ StrIncr (pts.map Prod.fst)

/-! ## Correlation tables (`bp_conversions.py` constants) -/

/-- Constant `Oil.vol_distl_list = [0, 10, 30, 50, 70, 90, 95]`. -/
noncomputable def vol_distl_list : List ℝ := [0, 10, 30, 50, 70, 90, 95]

/-- Table `API_constants` of `API_D86_TBP` / `TBP_to_D86` as a function of the key;
the final fallback pair is the `.get` default `(0.9167, 1.0019)` that
`TBP_to_D86` uses at the 100% key. -/
noncomputable def API_constants (vol : ℝ) : ℝ × ℝ :=
  if vol = 0 then (0.9167, 1.0019)
  else if vol = 10 then (0.5277, 1.0900)
  else if vol = 30 then (0.7429, 1.0425)
  else if vol = 50 then (0.8920, 1.0176)
  else if vol = 70 then (0.8705, 1.0226)
  else if vol = 90 then (0.9490, 1.0110)
  else if vol = 95 then (0.8008, 1.0355)
  else (0.9167, 1.0019)

/-- Table `Daubert_constants` of `Daubert_ASTM_D86_TBP` (indexed 1–7). -/
noncomputable def Daubert_constants (i : ℕ) : ℝ × ℝ :=
  if i = 1 then (7.4012, 0.6024)
  else if i = 2 then (4.9004, 0.7164)
  else if i = 3 then (3.0305, 0.8008)
  else if i = 4 then (0.8718, 1.0258)
  else if i = 5 then (2.5282, 0.8200)
  else if i = 6 then (3.0419, 0.7750)
  else (0.1180, 1.6606)

/-- Table `riazi_d86_coefficients` of `D2887_to_D86` (the dictionary is only ever
indexed at the seven keys, so the final branch is unreachable). -/
noncomputable def riazi_d86_coefficients (vol : ℝ) : ℝ × ℝ :=
  if vol = 0 then (0.9965, 0.9985)
  else if vol = 10 then (0.9970, 0.9988)
  else if vol = 30 then (0.9975, 0.9990)
  else if vol = 50 then (0.9977, 0.9992)
  else if vol = 70 then (0.9975, 0.9990)
  else if vol = 90 then (0.9968, 0.9986)
  else (0.9960, 0.9982)

/-- The key list `[0, 10, 30, 50, 70, 90, 100]` used by the Riazi-style
D2887 conversions. -/
noncomputable def riazi_key_points : List ℝ := [0, 10, 30, 50, 70, 90, 100]

/-! ## Curve synthesis and normalization (`Oil` methods) -/

/-- Method `Oil.API_D86_TBP(d86)`: the D86 interpolant over the given points, and
the API-method TBP interpolant whose knots are `vol_distl_list` with the
forward power law `TBP_R = a * D86_R^b` applied to the sampled D86 value at
each key. -/
noncomputable def API_D86_TBP (d86 : List (ℝ × ℝ)) : Pchip × Pchip :=
  let D86_interp := Pchip.ofPoints d86
  let TBP_list := vol_distl_list.map (fun vol =>
    let a := (API_constants vol).1
    let b := (API_constants vol).2
    let D86_r := CtoR (D86_interp.eval vol)
    (vol, RtoC (a * D86_r ^ b)))
  (D86_interp, Pchip.ofPoints TBP_list)

/-- Lookup in a Python dict built from a pair list (`{p[0]: p[1] for p in pts}`):
the last binding of the key wins. -/
noncomputable def dictGet (pts : List (ℝ × ℝ)) (k : ℝ) : ℝ :=
  ((pts.filter (fun p => decide (p.1 = k))).map Prod.snd).getLastD 0

/-- Constant `dist_required` of `Daubert_ASTM_D86_TBP`. -/
noncomputable def dist_required : List ℝ := [0, 10, 30, 50, 70, 90, 95]

/-- The `D86_dict_r` sampling step of `Daubert_ASTM_D86_TBP` read at a
required key: normally the input temperature at that key converted to
Fahrenheit; but when any required key is missing from the input keys, the
source overwrites the entry at *every* required key with the value of the
PCHIP interpolant of the raw points — still in Celsius, with no conversion. -/
noncomputable def Daubert_sampled (D86 : List (ℝ × ℝ)) (dist : ℝ) : ℝ :=
  if ∀ k ∈ dist_required, k ∈ D86.map Prod.fst then CtoF (dictGet D86 dist)
  else pchipEval (D86.map Prod.fst) (D86.map Prod.snd) dist

/-- Anchor `TBP_50 = Daubert_constants[4][0] * D86_dict_r[50] ** Daubert_constants[4][1]`. -/
noncomputable def Daubert_TBP50F (D86 : List (ℝ × ℝ)) : ℝ :=
  (Daubert_constants 4).1 * Daubert_sampled D86 50 ^ (Daubert_constants 4).2

/-- The Daubert increment `dT_i = a_i * (D86_dict_r[hi] - D86_dict_r[lo]) ** b_i`. -/
noncomputable def Daubert_dT (D86 : List (ℝ × ℝ)) (i : ℕ) (hi lo : ℝ) : ℝ :=
  (Daubert_constants i).1 *
    (Daubert_sampled D86 hi - Daubert_sampled D86 lo) ^ (Daubert_constants i).2

/-- List `TBP_r_list` of `Daubert_ASTM_D86_TBP`: the anchor at 50% and the outward
walk by increments, all in °F. -/
noncomputable def Daubert_TBP_r_list (D86 : List (ℝ × ℝ)) : List (ℝ × ℝ) :=
  let TBP_50 := Daubert_TBP50F D86
  let TBP_30 := TBP_50 - Daubert_dT D86 3 50 30
  let TBP_10 := TBP_30 - Daubert_dT D86 2 30 10
  let TBP_0 := TBP_10 - Daubert_dT D86 1 10 0
  let TBP_70 := TBP_50 + Daubert_dT D86 5 70 50
  let TBP_90 := TBP_70 + Daubert_dT D86 6 90 70
  let TBP_95 := TBP_90 + Daubert_dT D86 7 95 90
  [(0, TBP_0), (10, TBP_10), (30, TBP_30), (50, TBP_50), (70, TBP_70),
    (90, TBP_90), (95, TBP_95)]

/-- Method `Oil.Daubert_ASTM_D86_TBP(D86)`: the Daubert-method TBP interpolant,
knotted at the seven standard keys with the walked values converted back to
Celsius. -/
noncomputable def Daubert_ASTM_D86_TBP (D86 : List (ℝ × ℝ)) : Pchip :=
  Pchip.ofPoints ((Daubert_TBP_r_list D86).map (fun p => (p.1, FtoC p.2)))

/-- The sampled D2887 temperature at `vol` converted inline to Rankine
(`d2887_temp_R = d2887_temp_C * 9/5 + 491.67` in `D2887_to_D86`). -/
noncomputable def sampledR (D2887 : List (ℝ × ℝ)) (vol : ℝ) : ℝ :=
  pchipEval (D2887.map Prod.fst) (D2887.map Prod.snd) vol * 9 / 5 + 491.67

/-- One key of `Oil.D2887_to_D86` in Rankine: the D2887 curve sampled at
`vol`, converted inline to Rankine, with the forward Riazi power law
`D86_R = a * D2887_R^b` applied using that key's table coefficients. -/
noncomputable def D2887_to_D86_keyR (D2887 : List (ℝ × ℝ)) (vol : ℝ) : ℝ :=
  (riazi_d86_coefficients vol).1 * sampledR D2887 vol ^ (riazi_d86_coefficients vol).2

/-- Method `Oil.D2887_to_D86(D2887)`: the canonical D86 point list (°C) at the keys
`[0, 10, 30, 50, 70, 90, 100]` (the source's `sorted` is the identity here
because the keys are produced in increasing order). -/
noncomputable def D2887_to_D86 (D2887 : List (ℝ × ℝ)) : List (ℝ × ℝ) :=
  riazi_key_points.map (fun vol => (vol, (D2887_to_D86_keyR D2887 vol - 491.67) * 5 / 9))

/-- Method `Oil.TBP_to_D86(TBP)`: inverse API power law `D86_R = (TBP_R / a)^(1/b)`
at the keys `[0, 10, 30, 50, 70, 90, 95, 100]`, the 100% key falling back to
the 0% coefficients via the dictionary `.get` default. -/
noncomputable def TBP_to_D86 (TBP : List (ℝ × ℝ)) : List (ℝ × ℝ) :=
  ([0, 10, 30, 50, 70, 90, 95, 100] : List ℝ).map (fun vol =>
    let a := (API_constants vol).1
    let b := (API_constants vol).2
    let TBP_R := CtoR (pchipEval (TBP.map Prod.fst) (TBP.map Prod.snd) vol)
    (vol, RtoC ((TBP_R / a) ^ (1 / b))))

/-! ## Property calculator (`VABP_`, `MeABP_`, `WatsonK_`)

`Oil.__init__` establishes, in every family branch, that the D86
interpolant's knots are the canonical D86 volumes and that
`self.original_temperatures` is the canonical D86 temperature list, so the
Fahrenheit helper interpolant `PchipInterpolator(D86_interp_C.x, [...])`
that `VABP_`/`MeABP_` build is the PCHIP of the canonical volumes against
the Celsius-to-Fahrenheit-converted canonical temperatures. -/

/-- Method `Oil.VABP_`: mean of the Fahrenheit helper interpolant at 10/30/50/70/90. -/
noncomputable def VABP_ (D86 : List (ℝ × ℝ)) : ℝ :=
  let F := pchipEval (D86.map Prod.fst) ((D86.map Prod.snd).map CtoF)
  (F 10 + F 30 + F 50 + F 70 + F 90) / 5

/-- Method `Oil.MeABP_`: VABP minus the slope-dependent exponential correction. -/
noncomputable def MeABP_ (D86 : List (ℝ × ℝ)) : ℝ :=
  let VABP_val := VABP_ D86
  let F := pchipEval (D86.map Prod.fst) ((D86.map Prod.snd).map CtoF)
  let SL := (F 90 - F 10) / (90 - 10)
  VABP_val -
    Real.exp (-0.94402 - 0.00865 * (VABP_val - 32) ^ (0.6667 : ℝ) +
      2.99791 * SL ^ (0.333 : ℝ))

/-- Assignment `self.SG = self.Density / 999.013` (made inside `WatsonK_`). -/
noncomputable def SG_ (Density : ℝ) : ℝ := Density / 999.013

/-- Method `Oil.WatsonK_`: `(MeABP + 460)**(1/3) / SG`. -/
noncomputable def WatsonK_ (D86 : List (ℝ × ℝ)) (Density : ℝ) : ℝ :=
  (MeABP_ D86 + 460) ^ ((1 : ℝ) / 3) / SG_ Density

/-! ## `Oil.__init__` construction state -/

/-- The canonical D86 point list `self.D86` stored by `Oil.__init__`,
per family branch. -/
noncomputable def oil_D86 (distillation_input : List (ℝ × ℝ)) (input_type : String) :
    List (ℝ × ℝ) :=
  if pyUpper input_type = "D86" then distillation_input
  else if pyUpper input_type = "D2887" ∨ pyUpper input_type = "SIMDIS" then
    D2887_to_D86 distillation_input
  else TBP_to_D86 distillation_input

/-- Attribute `self.original_temperatures` as assigned by `Oil.__init__` (in every
branch: the second components of the canonical D86 list of that branch). -/
noncomputable def original_temperatures (distillation_input : List (ℝ × ℝ))
    (input_type : String) : List ℝ :=
  (oil_D86 distillation_input input_type).map Prod.snd

/-- Attribute `self.original_volperc_distilled` as assigned by `Oil.__init__`. -/
noncomputable def original_volperc_distilled (distillation_input : List (ℝ × ℝ))
    (input_type : String) : List ℝ :=
  (oil_D86 distillation_input input_type).map Prod.fst

/-! ## Concrete example inputs used as counterexample / witness data -/

/-- A valid D2887-family input with knots at the seven Riazi keys whose
50% temperature is `(0.77601 - 491.67)*5/9` °C, i.e. exactly 0.77601 °R. -/
noncomputable def exD2887 : List (ℝ × ℝ) :=
  [(0, -272.9), (10, -272.8), (30, -272.75), (50, (0.77601 - 491.67) * 5 / 9),
    (70, -272.6), (90, -272.5), (100, -272.4)]

/-- A valid D86 input containing all seven Daubert keys whose 50% point is
`-155/9` °C, i.e. exactly 1 °F. -/
noncomputable def exD86full : List (ℝ × ℝ) :=
  [(0, -20), (10, -19), (30, -18), (50, -155 / 9), (70, -17), (90, -16), (95, -15)]

/-- A valid D86 input missing the required 0% key. -/
noncomputable def exD86miss : List (ℝ × ℝ) :=
  [(10, 50), (30, 70), (50, 90), (70, 110), (90, 130), (95, 140)]

/-- A valid D2887-family input with knots at the seven Riazi keys whose
0% temperature is `(1 - 491.67)*5/9` °C, i.e. exactly 1 °R. -/
noncomputable def exSim : List (ℝ × ℝ) :=
  [(0, (1 - 491.67) * 5 / 9), (10, -272), (30, -271), (50, -270), (70, -269),
    (90, -268), (100, -267)]

/-- A well-formed canonical D86 curve (strictly increasing in both
coordinates, volumes within [0, 100]) whose knot support stops at 20%. -/
noncomputable def exShort : List (ℝ × ℝ) := [(0, 0), (10, 100), (20, 101)]

/-- The input-validation conditions under which `Oil.__init__` completes
without raising at the dispatch/interpolation stage: a recognized family tag
(else `ValueError`, the spec's `InvalidFamily`), and the scipy
`PchipInterpolator` contract — at least 2 points, strictly increasing
volumes — for the raw input (the spec's `InvalidCurveInput`); every other
interpolant built during construction has fixed strictly increasing key
knots. -/
def OilAccepts (pts : List (ℝ × ℝ)) (input_type : String) : Prop :=
  familyOk input_type = true ∧ 2 ≤ pts.length ∧ StrIncr (pts.map Prod.fst)

/-! # Theorems

## Generic order and interpolation lemmas -/

theorem StrIncr.getD_lt {xs : List ℝ} (hx : StrIncr xs) {i j : ℕ} (hij : i < j)
    (hj : j < xs.length) : xs.getD i 0 < xs.getD j 0 := by
  have hp : xs.Pairwise (· < ·) := List.chain'_iff_pairwise.mp hx
  have hi : i < xs.length := lt_trans hij hj
  rw [List.getD_eq_getElem _ _ hi, List.getD_eq_getElem _ _ hj]
  exact List.pairwise_iff_getElem.mp hp i j hi hj hij

theorem StrIncr.getD_le {xs : List ℝ} (hx : StrIncr xs) {i j : ℕ} (hij : i ≤ j)
    (hj : j < xs.length) : xs.getD i 0 ≤ xs.getD j 0 := by
  rcases eq_or_lt_of_le hij with rfl | h
  · exact le_refl _
  · exact le_of_lt (hx.getD_lt h hj)

theorem StrIncr.tail₂ {x : ℝ} {xs : List ℝ} (hx : StrIncr (x :: xs)) : StrIncr xs :=
  List.Chain'.tail hx

theorem getD_map_of_lt (f : ℝ → ℝ) (l : List ℝ) {n : ℕ} (h : n < l.length) (d : ℝ) :
    (l.map f).getD n d = f (l.getD n 0) := by
  rw [List.getD_eq_getElem _ _ (by simpa using h), List.getD_eq_getElem _ _ h,
    List.getElem_map]

theorem hermite_left (xa ya da xb yb db : ℝ) : hermite xa ya da xb yb db xa = ya := by
  simp [hermite]

theorem hermite_right (xa ya da xb yb db : ℝ) (hab : xa ≠ xb) :
    hermite xa ya da xb yb db xb = yb := by
  have h : xb - xa ≠ 0 := sub_ne_zero.mpr (Ne.symm hab)
  field_simp [hermite]
  ring

/-! ## `findSeg` structure lemmas -/

theorem findSeg_short (xs : List ℝ) (v : ℝ) (h : xs.length ≤ 2) : findSeg xs v = 0 := by
  match xs with
  | [] => rfl
  | [_] => rfl
  | [_, _] => rfl
  | _ :: _ :: _ :: _ => simp at h

theorem findSeg_le : ∀ (xs : List ℝ) (v : ℝ), findSeg xs v ≤ xs.length - 2
  | [], _ => by simp [findSeg]
  | [_], _ => by simp [findSeg]
  | [_, _], _ => by simp [findSeg]
  | x0 :: x1 :: x2 :: rest, v => by
    rw [findSeg]
    split
    · simp
    · have ih := findSeg_le (x1 :: x2 :: rest) v
      simp only [List.length_cons] at *
      omega

theorem findSeg_mono : ∀ (xs : List ℝ) {v w : ℝ}, v ≤ w → findSeg xs v ≤ findSeg xs w
  | [], _, _, _ => le_refl _
  | [_], _, _, _ => le_refl _
  | [_, _], _, _, _ => le_refl _
  | x0 :: x1 :: x2 :: rest, v, w, hvw => by
    rw [findSeg, findSeg]
    split
    · exact Nat.zero_le _
    · rename_i h
      rw [if_neg (by intro hw; exact h (lt_of_le_of_lt hvw hw))]
      exact Nat.succ_le_succ (findSeg_mono (x1 :: x2 :: rest) hvw)

theorem findSeg_lower : ∀ (xs : List ℝ) (v : ℝ), StrIncr xs → xs.getD 0 0 ≤ v →
    xs.getD (findSeg xs v) 0 ≤ v
  | [], v, _, h0 => by simpa [findSeg] using h0
  | [_], v, _, h0 => by simpa [findSeg] using h0
  | [_, _], v, _, h0 => by simpa [findSeg] using h0
  | x0 :: x1 :: x2 :: rest, v, hx, h0 => by
    rw [findSeg]
    split
    · simpa using h0
    · rename_i h
      have hx' : StrIncr (x1 :: x2 :: rest) := (List.chain'_cons.mp hx).2
      have h1 : (x1 :: x2 :: rest).getD 0 0 ≤ v := le_of_not_lt h
      simpa [List.getD_cons_succ] using findSeg_lower (x1 :: x2 :: rest) v hx' h1

theorem findSeg_upper : ∀ (xs : List ℝ) (v : ℝ), 2 ≤ xs.length → StrIncr xs →
    v ≤ xs.getD (xs.length - 1) 0 → v ≤ xs.getD (findSeg xs v + 1) 0
  | [], _, h2, _, _ => by simp at h2
  | [_], _, h2, _, _ => by simp at h2
  | [_, _], v, _, _, hlast => by simpa [findSeg] using hlast
  | x0 :: x1 :: x2 :: rest, v, _, hx, hlast => by
    rw [findSeg]
    split
    · rename_i h
      simpa using le_of_lt h
    · have hx' : StrIncr (x1 :: x2 :: rest) := (List.chain'_cons.mp hx).2
      have hlast' : v ≤ (x1 :: x2 :: rest).getD ((x1 :: x2 :: rest).length - 1) 0 := by
        simpa [List.getD_cons_succ, List.length_cons] using hlast
      have ih := findSeg_upper (x1 :: x2 :: rest) v (by simp) hx' hlast'
      simpa [List.getD_cons_succ] using ih

theorem findSeg_upper_strict : ∀ (xs : List ℝ) (v : ℝ), findSeg xs v + 2 < xs.length →
    v < xs.getD (findSeg xs v + 1) 0
  | [], _, h => by simp [findSeg] at h
  | [_], _, h => by simp [findSeg] at h
  | [_, _], _, h => by simp [findSeg] at h
  | x0 :: x1 :: x2 :: rest, v, h => by
    rw [findSeg] at h ⊢
    split
    · rename_i hlt
      simpa using hlt
    · rename_i hge
      rw [if_neg hge] at h
      have ih := findSeg_upper_strict (x1 :: x2 :: rest) v (by
        simp only [List.length_cons] at h ⊢
        omega)
      simpa [List.getD_cons_succ] using ih

theorem findSeg_last : ∀ (xs : List ℝ) (v : ℝ), StrIncr xs →
    xs.getD (xs.length - 1) 0 ≤ v → findSeg xs v = xs.length - 2
  | [], _, _, _ => rfl
  | [_], _, _, _ => rfl
  | [_, _], _, _, _ => rfl
  | x0 :: x1 :: x2 :: rest, v, hx, hlast => by
    have hx' : StrIncr (x1 :: x2 :: rest) := (List.chain'_cons.mp hx).2
    have hlast' : (x1 :: x2 :: rest).getD ((x1 :: x2 :: rest).length - 1) 0 ≤ v := by
      simpa [List.getD_cons_succ, List.length_cons] using hlast
    have h1 : x1 ≤ v := by
      refine le_trans ?_ hlast'
      have := hx'.getD_le (i := 0) (j := (x1 :: x2 :: rest).length - 1)
        (Nat.zero_le _) (by simp)
      simpa using this
    rw [findSeg, if_neg (not_lt.mpr h1), findSeg_last (x1 :: x2 :: rest) v hx' hlast']
    simp only [List.length_cons]
    omega

theorem findSeg_knot_lt : ∀ (xs : List ℝ) (i : ℕ), StrIncr xs → i + 2 ≤ xs.length →
    findSeg xs (xs.getD i 0) = i
  | [], i, _, hi => by simp at hi
  | [_], i, _, hi => by simp at hi
  | [_, _], i, _, hi => by
    have : i = 0 := by simpa using Nat.le_of_succ_le_succ (Nat.le_of_succ_le_succ hi)
    subst this
    rfl
  | x0 :: x1 :: x2 :: rest, i, hx, hi => by
    have hx' : StrIncr (x1 :: x2 :: rest) := (List.chain'_cons.mp hx).2
    match i with
    | 0 =>
      have h01 : x0 < x1 := (List.chain'_cons.mp hx).1
      rw [findSeg]
      simp [h01]
    | j + 1 =>
      have hj2 : j + 2 ≤ (x1 :: x2 :: rest).length := by
        simp only [List.length_cons] at hi ⊢
        omega
      have hv : x1 ≤ (x1 :: x2 :: rest).getD j 0 := by
        have := hx'.getD_le (i := 0) (j := j) (Nat.zero_le _) (by
          simp only [List.length_cons] at hj2 ⊢
          omega)
        simpa using this
      rw [findSeg, List.getD_cons_succ, if_neg (not_lt.mpr hv),
        findSeg_knot_lt (x1 :: x2 :: rest) j hx' hj2]

/-- Evaluating a PCHIP interpolant exactly at its `i`-th knot returns the
`i`-th data value. -/
theorem pchipEval_knot (xs ys : List ℝ) (i : ℕ) (hx : StrIncr xs)
    (hi : i < xs.length) : pchipEval xs ys (xs.getD i 0) = ys.getD i 0 := by
  rcases le_or_lt (i + 2) xs.length with h | h
  · have hf := findSeg_knot_lt xs i hx h
    simp only [pchipEval, hf]
    exact hermite_left _ _ _ _ _ _
  · have hi' : i = xs.length - 1 := by omega
    rcases Nat.lt_or_ge xs.length 2 with h2 | h2
    · have hi0 : i = 0 := by omega
      subst hi0
      simp only [pchipEval, findSeg_short xs _ (by omega)]
      exact hermite_left _ _ _ _ _ _
    · subst hi'
      have hf := findSeg_last xs (xs.getD (xs.length - 1) 0) hx (le_refl _)
      simp only [pchipEval, hf]
      have hstep : xs.length - 2 + 1 = xs.length - 1 := by omega
      rw [hstep]
      refine hermite_right _ _ _ _ _ _ (ne_of_lt (hx.getD_lt ?_ ?_)) <;> omega

/-! ## Temperature converter lemmas and claims C9, C6, C7 -/

theorem unitCanon_cases (s r : String) (h : unitCanon s = some r) :
    r = "C" ∨ r = "K" ∨ r = "F" ∨ r = "R" := by
  unfold unitCanon unit_map at h
  split_ifs at h <;> simp_all

theorem toCelsius_fromCelsius (u : String)
    (hu : u = "C" ∨ u = "K" ∨ u = "F" ∨ u = "R") (c : ℝ) :
    toCelsius u (fromCelsius u c) = c := by
  rcases hu with rfl | rfl | rfl | rfl <;> simp [toCelsius, fromCelsius] <;> ring

theorem fromCelsius_toCelsius (u : String)
    (hu : u = "C" ∨ u = "K" ∨ u = "F" ∨ u = "R") (x : ℝ) :
    fromCelsius u (toCelsius u x) = x := by
  rcases hu with rfl | rfl | rfl | rfl <;> simp [toCelsius, fromCelsius] <;> ring

/-- C9: for every real temperature and every ordered pair of recognized unit
strings, the round trip `convert(convert(x, A, B), B, A)` succeeds and
returns exactly `x`, so it differs from `x` by less than 0.01. -/
theorem convert_roundTrip_id (x : ℝ) (A B : String)
    (hA : (unitCanon A).isSome = true) (hB : (unitCanon B).isSome = true) :
    convert_roundTrip x A B = some x ∧
      |(convert_roundTrip x A B).getD 0 - x| < 0.01 := by
  obtain ⟨a, ha⟩ := Option.isSome_iff_exists.mp hA
  obtain ⟨b, hb⟩ := Option.isSome_iff_exists.mp hB
  have key : convert_roundTrip x A B = some x := by
    by_cases hab : a = b
    · subst hab
      simp [convert_roundTrip, convert_temperature, ha, hb]
    · have h1 : convert_temperature x A B = some (fromCelsius b (toCelsius a x)) := by
        simp [convert_temperature, ha, hb, hab]
      have h2 : convert_temperature (fromCelsius b (toCelsius a x)) B A =
          some (fromCelsius a (toCelsius b (fromCelsius b (toCelsius a x)))) := by
        simp [convert_temperature, ha, hb, Ne.symm hab]
      rw [convert_roundTrip, h1, Option.some_bind, h2,
        toCelsius_fromCelsius b (unitCanon_cases B b hb),
        fromCelsius_toCelsius a (unitCanon_cases A a ha)]
  refine ⟨key, ?_⟩
  rw [key]
  norm_num

/-- Witness for C9 at `x = 25`, `A = "Celsius"`, `B = "°F"`. -/
theorem convert_roundTrip_id_witness :
    convert_roundTrip 25 "Celsius" "°F" = some 25 ∧
      |(convert_roundTrip 25 "Celsius" "°F").getD 0 - 25| < 0.01 :=
  convert_roundTrip_id 25 "Celsius" "°F" (by decide) (by decide)

/-- C6 counterexample: the family tag `"SimDist"`, which the claim says is
accepted, is rejected by the dispatch of `Oil.__init__` (its uppercase form
`"SIMDIST"` matches none of `D86`, `D2887`, `SIMDIS`, `TBP`), so an
otherwise-valid construction with it raises `ValueError`. -/
theorem familyTag_SimDist_rejected :
    familyOk "SimDist" = false ∧
      ¬ OilAccepts [((0 : ℝ), (160 : ℝ)), (50, 225), (100, 290)] "SimDist" := by
  refine ⟨by decide, fun h => absurd h.1 (by decide)⟩

/-- C6 amended: construction accepts exactly the case-insensitive tags
`D86`, `D2887`, `SimDis`, `TBP`; in particular `"SimDis"` (any case) is
accepted while the literal `"SimDist"` is rejected. -/
theorem familyOk_iff :
    (∀ s : String, familyOk s = true ↔
      (pyUpper s = "D86" ∨ pyUpper s = "D2887" ∨ pyUpper s = "SIMDIS" ∨
        pyUpper s = "TBP")) ∧
      familyOk "SimDis" = true ∧ familyOk "simdis" = true ∧
      familyOk "SimDist" = false := by
  refine ⟨fun s => ?_, by decide, by decide, by decide⟩
  simp [familyOk]
  tauto

/-- Witness for C6 at the lowercase tag `"d2887"`. -/
theorem familyOk_iff_witness : familyOk "d2887" = true :=
  (familyOk_iff.1 "d2887").mpr (Or.inr (Or.inl (by decide)))

/-- C7 counterexample: a two-point input — fewer than the claimed 3-point
minimum — passes every validation `Oil.__init__` performs, and already
satisfies the interpolant contract; construction does not fail on it. -/
theorem twoPoint_construction_accepted :
    OilAccepts [((0 : ℝ), (160 : ℝ)), (100, 290)] "D86" ∧
      ([((0 : ℝ), (160 : ℝ)), (100, 290)] : List (ℝ × ℝ)).length < 3 ∧
      PchipOk [((0 : ℝ), (160 : ℝ)), (100, 290)] := by
  refine ⟨⟨by decide, by norm_num, ?_⟩, by norm_num, by norm_num, ?_⟩ <;>
    norm_num [StrIncr, List.chain'_cons]

/-- C7 amended: the constructor enforces only the interpolant minimum — any
input with fewer than 2 points is rejected, while 2 strictly increasing
points already satisfy every construction-time validation (no 3-point
minimum exists). -/
theorem construction_min_points :
    (∀ (pts : List (ℝ × ℝ)) (s : String), pts.length < 2 → ¬ OilAccepts pts s) ∧
      OilAccepts [((0 : ℝ), (160 : ℝ)), (100, 290)] "D86" := by
  constructor
  · rintro pts s h ⟨-, h2, -⟩
    omega
  · refine ⟨by decide, by norm_num, ?_⟩
    norm_num [StrIncr, List.chain'_cons]

/-- Witness for C7 at the empty input list and the two-point list. -/
theorem construction_min_points_witness :
    (([] : List (ℝ × ℝ)).length < 2 ∧ ¬ OilAccepts ([] : List (ℝ × ℝ)) "D86") ∧
      OilAccepts [((0 : ℝ), (160 : ℝ)), (100, 290)] "D86" :=
  ⟨⟨by norm_num, construction_min_points.1 [] "D86" (by norm_num)⟩,
    construction_min_points.2⟩

/-! ## Claims C1, C2, C3, C8 -/

/-- C1 counterexample: at a valid D2887-family input whose 50% point is
0.77601 °R, the inverse API 50%-point relation would give 1 °R, but the
normalizer computes the 50% key by the forward Riazi table law
(`0.9977 * 0.77601^0.9992 < 1`), so the two disagree. -/
theorem D2887_to_D86_key50_not_inverseAPI :
    D2887_to_D86_keyR exD2887 50 ≠ (sampledR exD2887 50 / 0.77601) ^ ((1 : ℝ) / 1.0395) := by
  have hknot : pchipEval (exD2887.map Prod.fst) (exD2887.map Prod.snd) 50 =
      (0.77601 - 491.67) * 5 / 9 := by
    have h := pchipEval_knot (exD2887.map Prod.fst) (exD2887.map Prod.snd) 3 ?_ (by
      simp [exD2887])
    · simpa [exD2887] using h
    · norm_num [exD2887, StrIncr, List.chain'_cons]
  have hR : sampledR exD2887 50 = 0.77601 := by
    rw [sampledR, hknot]
    ring
  rw [D2887_to_D86_keyR, hR]
  have h1 : ((0.77601 : ℝ) / 0.77601) = 1 := by norm_num
  rw [h1, Real.one_rpow]
  have hco : riazi_d86_coefficients 50 = (0.9977, 0.9992) := by
    norm_num [riazi_d86_coefficients]
  rw [hco]
  have h2 : (0.77601 : ℝ) ^ (0.9992 : ℝ) < 1 :=
    Real.rpow_lt_one (by norm_num) (by norm_num) (by norm_num)
  have h3 : (0 : ℝ) ≤ (0.77601 : ℝ) ^ (0.9992 : ℝ) := Real.rpow_nonneg (by norm_num) _
  intro heq
  rw [show ((0.9977, 0.9992) : ℝ × ℝ).1 = 0.9977 from rfl,
    show ((0.9977, 0.9992) : ℝ × ℝ).2 = 0.9992 from rfl] at heq
  nlinarith

/-- C1 amended: `D2887_to_D86` computes every key point — the 50% key
included — by the forward Riazi power law `D86_R = a * D2887_R^b` with that
key's table coefficients; the inverse API 50%-point relation is not used. -/
theorem D2887_to_D86_forward_riazi (pts : List (ℝ × ℝ)) :
    D2887_to_D86 pts =
      [(0, (0.9965 * sampledR pts 0 ^ (0.9985 : ℝ) - 491.67) * 5 / 9),
       (10, (0.9970 * sampledR pts 10 ^ (0.9988 : ℝ) - 491.67) * 5 / 9),
       (30, (0.9975 * sampledR pts 30 ^ (0.9990 : ℝ) - 491.67) * 5 / 9),
       (50, (0.9977 * sampledR pts 50 ^ (0.9992 : ℝ) - 491.67) * 5 / 9),
       (70, (0.9975 * sampledR pts 70 ^ (0.9990 : ℝ) - 491.67) * 5 / 9),
       (90, (0.9968 * sampledR pts 90 ^ (0.9986 : ℝ) - 491.67) * 5 / 9),
       (100, (0.9960 * sampledR pts 100 ^ (0.9982 : ℝ) - 491.67) * 5 / 9)] := by
  norm_num [D2887_to_D86, D2887_to_D86_keyR, riazi_key_points, riazi_d86_coefficients]

/-- C2 counterexample: at a D86 curve whose 50% point is exactly 1 °F, the
computed Daubert anchor is `0.8718` — the fourth table constant — while the
API key-50 formula the claim specifies would give `0.8920`; the fourth
constant pair is the anchor's coefficients, not an unused placeholder. -/
theorem Daubert_anchor_not_API50 :
    Daubert_TBP50F exD86full = 0.8718 ∧
      0.8920 * Daubert_sampled exD86full 50 ^ (1.0176 : ℝ) = 0.8920 ∧
      Daubert_TBP50F exD86full ≠
        0.8920 * Daubert_sampled exD86full 50 ^ (1.0176 : ℝ) := by
  have hall : ∀ k ∈ dist_required, k ∈ exD86full.map Prod.fst := by
    intro k hk
    fin_cases hk <;> norm_num [exD86full]
  have hget : dictGet exD86full 50 = -155 / 9 := by
    norm_num [dictGet, exD86full, List.filter_cons, decide_eq_true_eq]
  have hsamp : Daubert_sampled exD86full 50 = 1 := by
    rw [Daubert_sampled, if_pos hall, hget, CtoF]
    ring
  have hanchor : Daubert_TBP50F exD86full = 0.8718 := by
    rw [Daubert_TBP50F, hsamp]
    norm_num [Daubert_constants, Real.one_rpow]
  have hapi : 0.8920 * Daubert_sampled exD86full 50 ^ (1.0176 : ℝ) = 0.8920 := by
    rw [hsamp, Real.one_rpow]
    norm_num
  refine ⟨hanchor, hapi, ?_⟩
  rw [hanchor, hapi]
  norm_num

/-- C2 amended: the 50% anchor is `0.8718 * D86_F(50)^1.0258` using the
fourth Daubert constant pair (not API key-50), and the other six pairs are
applied to the six inter-key gaps in the outward walk; no pair is unused. -/
theorem Daubert_anchor_and_increments (pts : List (ℝ × ℝ)) :
    Daubert_TBP50F pts = 0.8718 * Daubert_sampled pts 50 ^ (1.0258 : ℝ) ∧
    Daubert_dT pts 1 10 0 =
      7.4012 * (Daubert_sampled pts 10 - Daubert_sampled pts 0) ^ (0.6024 : ℝ) ∧
    Daubert_dT pts 2 30 10 =
      4.9004 * (Daubert_sampled pts 30 - Daubert_sampled pts 10) ^ (0.7164 : ℝ) ∧
    Daubert_dT pts 3 50 30 =
      3.0305 * (Daubert_sampled pts 50 - Daubert_sampled pts 30) ^ (0.8008 : ℝ) ∧
    Daubert_dT pts 5 70 50 =
      2.5282 * (Daubert_sampled pts 70 - Daubert_sampled pts 50) ^ (0.8200 : ℝ) ∧
    Daubert_dT pts 6 90 70 =
      3.0419 * (Daubert_sampled pts 90 - Daubert_sampled pts 70) ^ (0.7750 : ℝ) ∧
    Daubert_dT pts 7 95 90 =
      0.1180 * (Daubert_sampled pts 95 - Daubert_sampled pts 90) ^ (1.6606 : ℝ) ∧
    Daubert_TBP_r_list pts =
      [(0, Daubert_TBP50F pts - Daubert_dT pts 3 50 30 - Daubert_dT pts 2 30 10 -
        Daubert_dT pts 1 10 0),
       (10, Daubert_TBP50F pts - Daubert_dT pts 3 50 30 - Daubert_dT pts 2 30 10),
       (30, Daubert_TBP50F pts - Daubert_dT pts 3 50 30),
       (50, Daubert_TBP50F pts),
       (70, Daubert_TBP50F pts + Daubert_dT pts 5 70 50),
       (90, Daubert_TBP50F pts + Daubert_dT pts 5 70 50 + Daubert_dT pts 6 90 70),
       (95, Daubert_TBP50F pts + Daubert_dT pts 5 70 50 + Daubert_dT pts 6 90 70 +
        Daubert_dT pts 7 95 90)] := by
  refine ⟨?_, ?_, ?_, ?_, ?_, ?_, ?_, ?_⟩ <;>
    norm_num [Daubert_TBP50F, Daubert_dT, Daubert_constants, Daubert_TBP_r_list]

/-- C3 (code evaluated at the failing input): with the 0% key absent, the
sampling step returns the Celsius interpolant value 90 at the 50% key where
the Fahrenheit value 194 was required — the interpolated fallback skips the
Celsius-to-Fahrenheit conversion. -/
theorem Daubert_sampled_missing_key_not_fahrenheit :
    Daubert_sampled exD86miss 50 = 90 ∧
      CtoF (pchipEval (exD86miss.map Prod.fst) (exD86miss.map Prod.snd) 50) = 194 ∧
      (90 : ℝ) ≠ 194 := by
  have hknot : pchipEval (exD86miss.map Prod.fst) (exD86miss.map Prod.snd) 50 = 90 := by
    have h := pchipEval_knot (exD86miss.map Prod.fst) (exD86miss.map Prod.snd) 2 ?_ (by
      simp [exD86miss])
    · simpa [exD86miss] using h
    · norm_num [exD86miss, StrIncr, List.chain'_cons]
  have hmiss : ¬ ∀ k ∈ dist_required, k ∈ exD86miss.map Prod.fst := by
    intro hall
    have h0 := hall 0 (by norm_num [dist_required])
    norm_num [exD86miss] at h0
  refine ⟨?_, ?_, by norm_num⟩
  · rw [Daubert_sampled, if_neg hmiss, hknot]
  · rw [hknot, CtoF]
    norm_num

/-- C8 counterexample: a D2887-family construction stores, as its
"original" temperature list, the derived canonical D86 temperatures — at a
valid input whose 0% point is 1 °R the stored first temperature is
`(0.9965 - 491.67)*5/9`, not the input's `(1 - 491.67)*5/9`. -/
theorem stored_temperatures_not_input :
    original_temperatures exSim "D2887" ≠ exSim.map Prod.snd := by
  have hfam : oil_D86 exSim "D2887" = D2887_to_D86 exSim := by
    rw [oil_D86, if_neg (by decide), if_pos (by decide)]
  have hknot : pchipEval (exSim.map Prod.fst) (exSim.map Prod.snd) 0 =
      (1 - 491.67) * 5 / 9 := by
    have h := pchipEval_knot (exSim.map Prod.fst) (exSim.map Prod.snd) 0 ?_ (by
      simp [exSim])
    · simpa [exSim] using h
    · norm_num [exSim, StrIncr, List.chain'_cons]
  have hR : sampledR exSim 0 = 1 := by
    rw [sampledR, hknot]
    ring
  intro h
  have h0 := congrArg (fun l => l.getD 0 0) h
  simp only [original_temperatures, hfam, D2887_to_D86, riazi_key_points,
    D2887_to_D86_keyR, hR, List.map_cons, List.getD_cons_zero] at h0
  rw [Real.one_rpow] at h0
  norm_num [exSim, riazi_d86_coefficients] at h0

/-- C8 amended: only D86-family constructions store the raw input points as
the sample's original lists; D2887/SimDis-family and TBP-family
constructions store the components of the derived canonical D86 list. -/
theorem stored_points_per_family (pts : List (ℝ × ℝ)) (s : String) :
    (pyUpper s = "D86" →
      original_temperatures pts s = pts.map Prod.snd ∧
      original_volperc_distilled pts s = pts.map Prod.fst) ∧
    ((pyUpper s = "D2887" ∨ pyUpper s = "SIMDIS") →
      original_temperatures pts s = (D2887_to_D86 pts).map Prod.snd ∧
      original_volperc_distilled pts s = (D2887_to_D86 pts).map Prod.fst) ∧
    (pyUpper s = "TBP" →
      original_temperatures pts s = (TBP_to_D86 pts).map Prod.snd ∧
      original_volperc_distilled pts s = (TBP_to_D86 pts).map Prod.fst) := by
  refine ⟨fun h => ?_, fun h => ?_, fun h => ?_⟩
  · rw [original_temperatures, original_volperc_distilled, oil_D86, if_pos h]
    exact ⟨rfl, rfl⟩
  · have hne : pyUpper s ≠ "D86" := by
      rcases h with h | h <;> rw [h] <;> decide
    rw [original_temperatures, original_volperc_distilled, oil_D86,
      if_neg hne, if_pos h]
    exact ⟨rfl, rfl⟩
  · have hne : pyUpper s ≠ "D86" := by rw [h]; decide
    have hne2 : ¬ (pyUpper s = "D2887" ∨ pyUpper s = "SIMDIS") := by
      rw [h]
      rintro (hc | hc) <;> exact absurd hc (by decide)
    rw [original_temperatures, original_volperc_distilled, oil_D86,
      if_neg hne, if_neg hne2]
    exact ⟨rfl, rfl⟩

/-- Witness for C8 at a TBP-family construction. -/
theorem stored_points_per_family_witness :
    original_temperatures ([] : List (ℝ × ℝ)) "TBP" = (TBP_to_D86 []).map Prod.snd ∧
      original_volperc_distilled ([] : List (ℝ × ℝ)) "TBP" =
        (TBP_to_D86 []).map Prod.fst :=
  (stored_points_per_family [] "TBP").2.2 (by decide)

/-! ## Claim C10 -/

/-- C10: for every input, the API-method and the Daubert-method TBP
interpolants are each built over exactly the seven knots
`{0, 10, 30, 50, 70, 90, 95}` — neither has a knot at 100 — and evaluating
either at any `v > 95` (in particular `v = 100`) is extrapolation by the
boundary segment's cubic Hermite polynomial (the `[90, 95]` segment). -/
theorem TBP_knots_and_extrapolation (pts : List (ℝ × ℝ)) (v : ℝ) (hv : 95 < v) :
    (API_D86_TBP pts).2.xs = [0, 10, 30, 50, 70, 90, 95] ∧
    (Daubert_ASTM_D86_TBP pts).xs = [0, 10, 30, 50, 70, 90, 95] ∧
    (100 : ℝ) ∉ (API_D86_TBP pts).2.xs ∧
    (100 : ℝ) ∉ (Daubert_ASTM_D86_TBP pts).xs ∧
    (API_D86_TBP pts).2.eval v =
      hermite ((API_D86_TBP pts).2.xs.getD 5 0) ((API_D86_TBP pts).2.ys.getD 5 0)
        (pchipDeriv (API_D86_TBP pts).2.xs (API_D86_TBP pts).2.ys 5)
        ((API_D86_TBP pts).2.xs.getD 6 0) ((API_D86_TBP pts).2.ys.getD 6 0)
        (pchipDeriv (API_D86_TBP pts).2.xs (API_D86_TBP pts).2.ys 6) v ∧
    (Daubert_ASTM_D86_TBP pts).eval v =
      hermite ((Daubert_ASTM_D86_TBP pts).xs.getD 5 0)
        ((Daubert_ASTM_D86_TBP pts).ys.getD 5 0)
        (pchipDeriv (Daubert_ASTM_D86_TBP pts).xs (Daubert_ASTM_D86_TBP pts).ys 5)
        ((Daubert_ASTM_D86_TBP pts).xs.getD 6 0)
        ((Daubert_ASTM_D86_TBP pts).ys.getD 6 0)
        (pchipDeriv (Daubert_ASTM_D86_TBP pts).xs (Daubert_ASTM_D86_TBP pts).ys 6) v := by
  have hxa : (API_D86_TBP pts).2.xs = [0, 10, 30, 50, 70, 90, 95] := by
    simp [API_D86_TBP, Pchip.ofPoints, vol_distl_list]
  have hxd : (Daubert_ASTM_D86_TBP pts).xs = [0, 10, 30, 50, 70, 90, 95] := by
    simp [Daubert_ASTM_D86_TBP, Pchip.ofPoints, Daubert_TBP_r_list]
  have h5 : findSeg ([0, 10, 30, 50, 70, 90, 95] : List ℝ) v = 5 := by
    have h := findSeg_last ([0, 10, 30, 50, 70, 90, 95] : List ℝ) v
      (by norm_num [StrIncr, List.chain'_cons]) (by simpa using le_of_lt hv)
    simpa using h
  have heval : ∀ q : Pchip, q.xs = [0, 10, 30, 50, 70, 90, 95] →
      q.eval v = hermite (q.xs.getD 5 0) (q.ys.getD 5 0) (pchipDeriv q.xs q.ys 5)
        (q.xs.getD 6 0) (q.ys.getD 6 0) (pchipDeriv q.xs q.ys 6) v := by
    intro q hq
    have h5' : findSeg q.xs v = 5 := by
      rw [hq]
      exact h5
    simp only [Pchip.eval, pchipEval, h5']
  refine ⟨hxa, hxd, ?_, ?_, heval _ hxa, heval _ hxd⟩
  · rw [hxa]
    norm_num
  · rw [hxd]
    norm_num

/-- Witness for C10 at a concrete input and `v = 100`. -/
theorem TBP_knots_and_extrapolation_witness :
    (API_D86_TBP exD86full).2.xs = [0, 10, 30, 50, 70, 90, 95] :=
  (TBP_knots_and_extrapolation exD86full 100 (by norm_num)).1

/-! ## Monotonicity of the PCHIP interpolant on strictly increasing data

The Fritsch–Carlson argument: for strictly increasing data all secant
slopes are positive, every Hermite derivative the scheme picks lies in
`[0, 3·(adjacent slope)]`, and a cubic Hermite segment with such endpoint
derivatives is strictly increasing. -/

theorem sgn_of_pos {x : ℝ} (h : 0 < x) : sgn x = 1 := by
  rw [sgn, if_neg (not_lt.mpr (le_of_lt h)), if_neg (ne_of_gt h)]

theorem hseg_pos {xs : List ℝ} (hx : StrIncr xs) {k : ℕ} (hk : k + 1 < xs.length) :
    0 < hseg xs k :=
  sub_pos.mpr (hx.getD_lt (Nat.lt_succ_self k) hk)

theorem mslope_pos {xs ys : List ℝ} (hx : StrIncr xs) (hy : StrIncr ys)
    (hlen : ys.length = xs.length) {k : ℕ} (hk : k + 1 < xs.length) :
    0 < mslope xs ys k :=
  div_pos (sub_pos.mpr (hy.getD_lt (Nat.lt_succ_self k) (by omega))) (hseg_pos hx hk)

theorem edgeDeriv_bounds (h0 h1 m0 m1 : ℝ) (hh0 : 0 < h0) (hh1 : 0 < h1)
    (hm0 : 0 < m0) (hm1 : 0 < m1) :
    0 ≤ edgeDeriv h0 h1 m0 m1 ∧ edgeDeriv h0 h1 m0 m1 ≤ 2 * m0 := by
  have hsum : 0 < h0 + h1 := by linarith
  have hs0 : sgn m0 = 1 := sgn_of_pos hm0
  have hs1 : sgn m1 = 1 := sgn_of_pos hm1
  rw [edgeDeriv]
  by_cases hcase : sgn (((2 * h0 + h1) * m0 - h0 * m1) / (h0 + h1)) ≠ sgn m0
  · rw [if_pos hcase]
    exact ⟨le_refl 0, by linarith⟩
  · rw [if_neg hcase, if_neg (by rw [hs0, hs1]; simp)]
    push_neg at hcase
    rw [hs0] at hcase
    have hdpos : 0 < ((2 * h0 + h1) * m0 - h0 * m1) / (h0 + h1) := by
      by_contra hle
      push_neg at hle
      rcases lt_or_eq_of_le hle with hlt | heq
      · rw [sgn, if_pos hlt] at hcase
        norm_num at hcase
      · rw [sgn, if_neg (by linarith), if_pos heq] at hcase
        norm_num at hcase
    refine ⟨le_of_lt hdpos, ?_⟩
    rw [div_le_iff₀ hsum]
    nlinarith

theorem interiorDeriv_bounds (hkm hk mkm mk : ℝ) (hhkm : 0 < hkm) (hhk : 0 < hk)
    (hmkm : 0 < mkm) (hmk : 0 < mk) :
    0 ≤ interiorDeriv hkm hk mkm mk ∧ interiorDeriv hkm hk mkm mk ≤ 3 * mkm ∧
      interiorDeriv hkm hk mkm mk ≤ 3 * mk := by
  rw [interiorDeriv, if_neg]
  swap
  · rintro (h | h | h)
    · rw [sgn_of_pos hmk, sgn_of_pos hmkm] at h
      exact h rfl
    · linarith
    · linarith
  · have hw1 : 0 < 2 * hk + hkm := by linarith
    have hw2 : 0 < hk + 2 * hkm := by linarith
    have hden : 0 < (2 * hk + hkm) / mkm + (hk + 2 * hkm) / mk := by positivity
    refine ⟨le_of_lt (div_pos (by linarith) hden), ?_, ?_⟩
    · rw [div_le_iff₀ hden]
      have e1 : 3 * mkm * ((2 * hk + hkm) / mkm + (hk + 2 * hkm) / mk) =
          3 * (2 * hk + hkm) + 3 * (hk + 2 * hkm) * (mkm / mk) := by
        field_simp
        ring
      rw [e1]
      have hpos : 0 < 3 * (hk + 2 * hkm) * (mkm / mk) := by positivity
      linarith
    · rw [div_le_iff₀ hden]
      have e2 : 3 * mk * ((2 * hk + hkm) / mkm + (hk + 2 * hkm) / mk) =
          3 * (2 * hk + hkm) * (mk / mkm) + 3 * (hk + 2 * hkm) := by
        field_simp
        ring
      rw [e2]
      have hpos : 0 < 3 * (2 * hk + hkm) * (mk / mkm) := by positivity
      linarith

/-- The scipy PCHIP derivative at knot `k` of strictly increasing data is
nonnegative and bounded by three times each adjacent secant slope. -/
theorem pchipDeriv_bounds {xs ys : List ℝ} (hx : StrIncr xs) (hy : StrIncr ys)
    (hlen : ys.length = xs.length) (hn : 2 ≤ xs.length) {k : ℕ} (hk : k < xs.length) :
    0 ≤ pchipDeriv xs ys k ∧
      (k + 1 < xs.length → pchipDeriv xs ys k ≤ 3 * mslope xs ys k) ∧
      (1 ≤ k → pchipDeriv xs ys k ≤ 3 * mslope xs ys (k - 1)) := by
  simp only [pchipDeriv]
  by_cases h2 : xs.length = 2
  · rw [if_pos h2]
    have hm := mslope_pos hx hy hlen (k := 0) (by omega)
    refine ⟨le_of_lt hm, fun hk1 => ?_, fun hk1 => ?_⟩
    · have hk0 : k = 0 := by omega
      subst hk0
      linarith
    · have hk0 : k = 1 := by omega
      subst hk0
      norm_num
      linarith
  · rw [if_neg h2]
    have h3 : 3 ≤ xs.length := by omega
    by_cases hk0 : k = 0
    · subst hk0
      rw [if_pos rfl]
      have hm0 := mslope_pos hx hy hlen (k := 0) (by omega)
      have hm1 := mslope_pos hx hy hlen (k := 1) (by omega)
      have hb := edgeDeriv_bounds _ _ _ _ (hseg_pos hx (k := 0) (by omega))
        (hseg_pos hx (k := 1) (by omega)) hm0 hm1
      exact ⟨hb.1, fun _ => by linarith [hb.2], fun h1 => False.elim (by omega)⟩
    · rw [if_neg hk0]
      by_cases hklast : k = xs.length - 1
      · rw [if_pos hklast]
        have hmn2 := mslope_pos hx hy hlen (k := xs.length - 2) (by omega)
        have hmn3 := mslope_pos hx hy hlen (k := xs.length - 3) (by omega)
        have hb := edgeDeriv_bounds _ _ _ _ (hseg_pos hx (k := xs.length - 2) (by omega))
          (hseg_pos hx (k := xs.length - 3) (by omega)) hmn2 hmn3
        refine ⟨hb.1, fun hk1 => False.elim (by omega), fun _ => ?_⟩
        have hkk : k - 1 = xs.length - 2 := by omega
        rw [hkk]
        linarith [hb.2]
      · rw [if_neg hklast]
        have hkn : k + 1 < xs.length := by omega
        have hmkm := mslope_pos hx hy hlen (k := k - 1) (by omega)
        have hmk := mslope_pos hx hy hlen (k := k) hkn
        have hb := interiorDeriv_bounds _ _ _ _ (hseg_pos hx (k := k - 1) (by omega))
          (hseg_pos hx hkn) hmkm hmk
        exact ⟨hb.1, fun _ => hb.2.2, fun _ => hb.2.1⟩

/-- A real quadratic vanishing at three distinct points vanishes
identically. -/
theorem quad_three_roots (A B C u m v : ℝ) (hum : u < m) (hmv : m < v)
    (h1 : A * u ^ 2 + B * u + C = 0) (h2 : A * m ^ 2 + B * m + C = 0)
    (h3 : A * v ^ 2 + B * v + C = 0) : ∀ w, A * w ^ 2 + B * w + C = 0 := by
  have e1 : A * (u + m) + B = 0 := by
    have hfac : (u - m) * (A * (u + m) + B) = 0 := by linear_combination h1 - h2
    rcases mul_eq_zero.mp hfac with h | h
    · exact absurd h (sub_ne_zero.mpr (ne_of_lt hum))
    · exact h
  have e2 : A * (m + v) + B = 0 := by
    have hfac : (m - v) * (A * (m + v) + B) = 0 := by linear_combination h2 - h3
    rcases mul_eq_zero.mp hfac with h | h
    · exact absurd h (sub_ne_zero.mpr (ne_of_lt hmv))
    · exact h
  have hA : A = 0 := by
    have hfac : A * (u - v) = 0 := by linear_combination e1 - e2
    rcases mul_eq_zero.mp hfac with h | h
    · exact h
    · exact absurd h (sub_ne_zero.mpr (ne_of_lt (lt_trans hum hmv)))
  have hB : B = 0 := by
    rw [hA] at e1
    linarith
  have hC : C = 0 := by
    rw [hA, hB] at h2
    linarith
  intro w
  rw [hA, hB, hC]
  ring

set_option maxHeartbeats 1000000 in
/-- A cubic Hermite segment over `[xa, xb]` with increasing endpoint values
and derivatives in `[0, 3m]` (Fritsch–Carlson region) is strictly
increasing on the segment. -/
theorem hermite_strictMonoOn (xa ya da xb yb db : ℝ) (hx : xa < xb) (hy : ya < yb)
    (hda0 : 0 ≤ da) (hda3 : da ≤ 3 * ((yb - ya) / (xb - xa)))
    (hdb0 : 0 ≤ db) (hdb3 : db ≤ 3 * ((yb - ya) / (xb - xa))) :
    StrictMonoOn (hermite xa ya da xb yb db) (Set.Icc xa xb) := by
  set h := xb - xa with hh
  set m := (yb - ya) / h with hm
  have hhpos : 0 < h := sub_pos.mpr hx
  have hmpos : 0 < m := div_pos (sub_pos.mpr hy) hhpos
  set g : ℝ → ℝ := fun τ =>
    (-6 * m + 3 * da + 3 * db) * τ ^ 2 + (6 * m - 4 * da - 2 * db) * τ + da with hg
  have hgnn : ∀ τ, 0 ≤ τ → τ ≤ 1 → 0 ≤ g τ := by
    intro τ h0 h1
    have key : 9 * m * g τ =
        6 * τ * (1 - τ) * ((3 * m - da) * (3 * m - db)) +
          3 * (1 - τ) ^ 2 * (da * (3 * m - db)) +
          3 * τ ^ 2 * ((3 * m - da) * db) +
          3 * (2 * τ - 1) ^ 2 * (da * db) := by
      rw [hg]
      ring
    have hτ1 : (0 : ℝ) ≤ 1 - τ := by linarith
    have h3da : 0 ≤ 3 * m - da := by linarith
    have h3db : 0 ≤ 3 * m - db := by linarith
    have t1 : 0 ≤ 6 * τ * (1 - τ) * ((3 * m - da) * (3 * m - db)) :=
      mul_nonneg (mul_nonneg (mul_nonneg (by norm_num) h0) hτ1) (mul_nonneg h3da h3db)
    have t2 : 0 ≤ 3 * (1 - τ) ^ 2 * (da * (3 * m - db)) :=
      mul_nonneg (by positivity) (mul_nonneg hda0 h3db)
    have t3 : 0 ≤ 3 * τ ^ 2 * ((3 * m - da) * db) :=
      mul_nonneg (by positivity) (mul_nonneg h3da hdb0)
    have t4 : 0 ≤ 3 * (2 * τ - 1) ^ 2 * (da * db) :=
      mul_nonneg (by positivity) (mul_nonneg hda0 hdb0)
    nlinarith [key, t1, t2, t3, t4, hmpos]
  have hne : xb - xa ≠ 0 := sub_ne_zero.mpr (ne_of_gt hx)
  have simpson : ∀ u v : ℝ,
      hermite xa ya da xb yb db v - hermite xa ya da xb yb db u =
        (v - u) / 6 * (g ((u - xa) / h) + 4 * g (((u + v) / 2 - xa) / h) +
          g ((v - xa) / h)) := by
    intro u v
    simp only [hermite, hg, hm, hh]
    field_simp
    ring
  intro u hu v hv huv
  simp only [Set.mem_Icc] at hu hv
  have hτu0 : 0 ≤ (u - xa) / h := div_nonneg (by linarith [hu.1]) (le_of_lt hhpos)
  have hτu1 : (u - xa) / h ≤ 1 := by
    rw [div_le_one hhpos]
    linarith [hu.2]
  have hτv0 : 0 ≤ (v - xa) / h := div_nonneg (by linarith [hv.1]) (le_of_lt hhpos)
  have hτv1 : (v - xa) / h ≤ 1 := by
    rw [div_le_one hhpos]
    linarith [hv.2]
  have hτm0 : 0 ≤ ((u + v) / 2 - xa) / h := div_nonneg (by linarith [hu.1, hv.1])
    (le_of_lt hhpos)
  have hτm1 : ((u + v) / 2 - xa) / h ≤ 1 := by
    rw [div_le_one hhpos]
    linarith [hu.2, hv.2]
  have hgu := hgnn _ hτu0 hτu1
  have hgm := hgnn _ hτm0 hτm1
  have hgv := hgnn _ hτv0 hτv1
  have hS := simpson u v
  by_cases hSpos :
      0 < g ((u - xa) / h) + 4 * g (((u + v) / 2 - xa) / h) + g ((v - xa) / h)
  · have hfac : 0 < (v - u) / 6 *
        (g ((u - xa) / h) + 4 * g (((u + v) / 2 - xa) / h) + g ((v - xa) / h)) :=
      mul_pos (by linarith) hSpos
    linarith [hS]
  · push_neg at hSpos
    exfalso
    have hz1 : g ((u - xa) / h) = 0 := by linarith
    have hz2 : g (((u + v) / 2 - xa) / h) = 0 := by linarith
    have hz3 : g ((v - xa) / h) = 0 := by linarith
    have hτum : (u - xa) / h < ((u + v) / 2 - xa) / h := by
      rw [div_lt_div_iff₀ hhpos hhpos]
      nlinarith [mul_pos (show (0 : ℝ) < v - u by linarith) hhpos]
    have hτmv : ((u + v) / 2 - xa) / h < (v - xa) / h := by
      rw [div_lt_div_iff₀ hhpos hhpos]
      nlinarith [mul_pos (show (0 : ℝ) < v - u by linarith) hhpos]
    simp only [hg] at hz1 hz2 hz3
    have hall := quad_three_roots _ _ _ _ _ _ hτum hτmv hz1 hz2 hz3
    have hgzero : ∀ w, g w = 0 := fun w => by
      simp only [hg]
      exact hall w
    have hcontra := simpson xa xb
    rw [hermite_right xa ya da xb yb db (ne_of_lt hx), hermite_left] at hcontra
    simp only [hgzero] at hcontra
    norm_num at hcontra
    linarith

/-- The PCHIP interpolant of strictly increasing data is strictly
increasing on the knot span. -/
theorem pchip_strictMonoOn {xs ys : List ℝ} (hx : StrIncr xs) (hy : StrIncr ys)
    (hlen : ys.length = xs.length) (hn : 2 ≤ xs.length) :
    StrictMonoOn (pchipEval xs ys)
      (Set.Icc (xs.getD 0 0) (xs.getD (xs.length - 1) 0)) := by
  have seg : ∀ i, i + 1 < xs.length →
      StrictMonoOn (hermite (xs.getD i 0) (ys.getD i 0) (pchipDeriv xs ys i)
        (xs.getD (i + 1) 0) (ys.getD (i + 1) 0) (pchipDeriv xs ys (i + 1)))
        (Set.Icc (xs.getD i 0) (xs.getD (i + 1) 0)) := by
    intro i hi
    have hbi := pchipDeriv_bounds hx hy hlen hn (k := i) (by omega)
    have hbi1 := pchipDeriv_bounds hx hy hlen hn (k := i + 1) hi
    have hmb := hbi.2.1 hi
    have hmb1 := hbi1.2.2 (by omega)
    rw [mslope, hseg] at hmb
    rw [show i + 1 - 1 = i from rfl, mslope, hseg] at hmb1
    exact hermite_strictMonoOn _ _ _ _ _ _
      (hx.getD_lt (Nat.lt_succ_self i) hi)
      (hy.getD_lt (Nat.lt_succ_self i) (by omega))
      hbi.1 hmb hbi1.1 hmb1
  have hevalseg : ∀ w : ℝ, pchipEval xs ys w =
      hermite (xs.getD (findSeg xs w) 0) (ys.getD (findSeg xs w) 0)
        (pchipDeriv xs ys (findSeg xs w)) (xs.getD (findSeg xs w + 1) 0)
        (ys.getD (findSeg xs w + 1) 0) (pchipDeriv xs ys (findSeg xs w + 1)) w :=
    fun _ => rfl
  intro u hu v hv huv
  simp only [Set.mem_Icc] at hu hv
  have hij : findSeg xs u ≤ findSeg xs v := findSeg_mono xs (le_of_lt huv)
  have hile : findSeg xs u ≤ xs.length - 2 := findSeg_le xs u
  have hjle : findSeg xs v ≤ xs.length - 2 := findSeg_le xs v
  have hui_lo : xs.getD (findSeg xs u) 0 ≤ u := findSeg_lower xs u hx hu.1
  have hui_hi : u ≤ xs.getD (findSeg xs u + 1) 0 := findSeg_upper xs u hn hx hu.2
  have hvj_lo : xs.getD (findSeg xs v) 0 ≤ v := findSeg_lower xs v hx hv.1
  have hvj_hi : v ≤ xs.getD (findSeg xs v + 1) 0 := findSeg_upper xs v hn hx hv.2
  rcases eq_or_lt_of_le hij with heq | hlt
  · rw [hevalseg u, hevalseg v, ← heq]
    exact seg (findSeg xs u) (by omega)
      (Set.mem_Icc.mpr ⟨hui_lo, hui_hi⟩)
      (Set.mem_Icc.mpr ⟨by rw [heq]; exact hvj_lo, by rw [heq]; exact hvj_hi⟩) huv
  · have hustrict : u < xs.getD (findSeg xs u + 1) 0 :=
      findSeg_upper_strict xs u (by omega)
    have step1 : pchipEval xs ys u < ys.getD (findSeg xs u + 1) 0 := by
      have hlast := hermite_right (xs.getD (findSeg xs u) 0) (ys.getD (findSeg xs u) 0)
        (pchipDeriv xs ys (findSeg xs u)) (xs.getD (findSeg xs u + 1) 0)
        (ys.getD (findSeg xs u + 1) 0) (pchipDeriv xs ys (findSeg xs u + 1))
        (ne_of_lt (hx.getD_lt (Nat.lt_succ_self _) (by omega)))
      have hmono := seg (findSeg xs u) (by omega)
        (Set.mem_Icc.mpr ⟨hui_lo, le_of_lt hustrict⟩)
        (Set.mem_Icc.mpr ⟨hx.getD_le (Nat.le_succ _) (by omega), le_refl _⟩) hustrict
      rw [hlast] at hmono
      rw [hevalseg u]
      exact hmono
    have step2 : ys.getD (findSeg xs u + 1) 0 ≤ ys.getD (findSeg xs v) 0 :=
      hy.getD_le (by omega) (by omega)
    have step3 : ys.getD (findSeg xs v) 0 ≤ pchipEval xs ys v := by
      have hfirst : hermite (xs.getD (findSeg xs v) 0) (ys.getD (findSeg xs v) 0)
          (pchipDeriv xs ys (findSeg xs v)) (xs.getD (findSeg xs v + 1) 0)
          (ys.getD (findSeg xs v + 1) 0) (pchipDeriv xs ys (findSeg xs v + 1))
          (xs.getD (findSeg xs v) 0) = ys.getD (findSeg xs v) 0 :=
        hermite_left _ _ _ _ _ _
      have hmono := (seg (findSeg xs v) (by omega)).monotoneOn
        (Set.mem_Icc.mpr ⟨le_refl _, hx.getD_le (Nat.le_succ _) (by omega)⟩)
        (Set.mem_Icc.mpr ⟨hvj_lo, hvj_hi⟩) hvj_lo
      rw [hfirst] at hmono
      rw [hevalseg v]
      exact hmono
    linarith

theorem sgn_of_neg {x : ℝ} (h : x < 0) : sgn x = -1 := by
  rw [sgn, if_pos h]

/-! ## Claim C5 -/

/-- C5 amended: for every well-formed canonical D86 curve the exposed D86
interpolant is strictly increasing on the curve's knot span
`[first volume, last volume]` (which is all of [0,100] whenever the knots
span it); outside the knot span the boundary-segment extrapolation can
decrease, so the restriction to the span is necessary. -/
theorem D86_interp_strictMono (pts : List (ℝ × ℝ)) (hn : 2 ≤ pts.length)
    (hvols : StrIncr (pts.map Prod.fst)) (htemps : StrIncr (pts.map Prod.snd))
    (v1 v2 : ℝ) (hlo : (pts.map Prod.fst).getD 0 0 ≤ v1) (hlt : v1 < v2)
    (hhi : v2 ≤ (pts.map Prod.fst).getD (pts.length - 1) 0) :
    (API_D86_TBP pts).1.eval v1 < (API_D86_TBP pts).1.eval v2 := by
  have hxlen : (pts.map Prod.fst).length = pts.length := List.length_map _ _
  have hkey := pchip_strictMonoOn hvols htemps (by simp) (by omega)
  rw [hxlen] at hkey
  exact hkey (Set.mem_Icc.mpr ⟨hlo, le_trans (le_of_lt hlt) hhi⟩)
    (Set.mem_Icc.mpr ⟨le_trans hlo (le_of_lt hlt), hhi⟩) hlt

/-- Witness for C5 at a three-point curve spanning [0, 100] and
`v1 = 20 < v2 = 85`. -/
theorem D86_interp_strictMono_witness :
    (API_D86_TBP [((0 : ℝ), (160 : ℝ)), (50, 225), (100, 290)]).1.eval 20 <
      (API_D86_TBP [((0 : ℝ), (160 : ℝ)), (50, 225), (100, 290)]).1.eval 85 :=
  D86_interp_strictMono _ (by norm_num)
    (by norm_num [StrIncr, List.chain'_cons])
    (by norm_num [StrIncr, List.chain'_cons]) 20 85
    (by norm_num) (by norm_num) (by norm_num)

/-- C5 counterexample: a well-formed canonical D86 curve (strictly
increasing in both coordinates, volumes within [0, 100]) with knots
`0, 10, 20`: at `v1 = 20 < v2 = 30`, both within [0, 100], the exposed
interpolant strictly *decreases* (`D86(30) = 96 + 400/101 < 101 = D86(20)`),
because evaluation beyond the last knot extrapolates the boundary cubic. -/
theorem D86_interp_not_monotone_on_0_100 :
    StrIncr (exShort.map Prod.fst) ∧ StrIncr (exShort.map Prod.snd) ∧
      (∀ p ∈ exShort, 0 ≤ p.1 ∧ p.1 ≤ 100) ∧
      (0 : ℝ) ≤ 20 ∧ (20 : ℝ) < 30 ∧ (30 : ℝ) ≤ 100 ∧
      (API_D86_TBP exShort).1.eval 30 < (API_D86_TBP exShort).1.eval 20 := by
  have hxs : exShort.map Prod.fst = [0, 10, 20] := by norm_num [exShort]
  have hys : exShort.map Prod.snd = [0, 100, 101] := by norm_num [exShort]
  have h20 : (API_D86_TBP exShort).1.eval 20 = 101 := by
    have h := pchipEval_knot (exShort.map Prod.fst) (exShort.map Prod.snd) 2
      (by norm_num [exShort, StrIncr, List.chain'_cons]) (by simp [exShort])
    rw [hxs, hys] at h
    norm_num at h
    show pchipEval (exShort.map Prod.fst) (exShort.map Prod.snd) 20 = 101
    rw [hxs, hys]
    exact h
  have e1 : hseg ([0, 10, 20] : List ℝ) 0 = 10 := by
    norm_num [hseg, List.getD_cons_zero, List.getD_cons_succ]
  have e2 : hseg ([0, 10, 20] : List ℝ) 1 = 10 := by
    norm_num [hseg, List.getD_cons_zero, List.getD_cons_succ]
  have e3 : mslope ([0, 10, 20] : List ℝ) [0, 100, 101] 0 = 10 := by
    norm_num [mslope, hseg, List.getD_cons_zero, List.getD_cons_succ]
  have e4 : mslope ([0, 10, 20] : List ℝ) [0, 100, 101] 1 = 1 / 10 := by
    norm_num [mslope, hseg, List.getD_cons_zero, List.getD_cons_succ]
  have hint : interiorDeriv (10 : ℝ) 10 10 (1 / 10) = 20 / 101 := by
    rw [interiorDeriv, if_neg]
    · norm_num
    · rintro (h | h | h)
      · rw [sgn_of_pos (by norm_num : (0 : ℝ) < 1 / 10),
          sgn_of_pos (by norm_num : (0 : ℝ) < 10)] at h
        exact h rfl
      · norm_num at h
      · norm_num at h
  have hedge : edgeDeriv (10 : ℝ) 10 (1 / 10) 10 = 0 := by
    have hd : ((2 * (10 : ℝ) + 10) * (1 / 10) - 10 * 10) / (10 + 10) < 0 := by norm_num
    simp only [edgeDeriv]
    rw [if_pos]
    rw [sgn_of_neg hd, sgn_of_pos (by norm_num : (0 : ℝ) < 1 / 10)]
    norm_num
  have hd1 : pchipDeriv ([0, 10, 20] : List ℝ) [0, 100, 101] 1 = 20 / 101 := by
    norm_num [pchipDeriv, e1, e2, e3, e4, hint]
  have hd2 : pchipDeriv ([0, 10, 20] : List ℝ) [0, 100, 101] 2 = 0 := by
    norm_num [pchipDeriv, e1, e2, e3, e4, hedge]
  have hseg30 : findSeg ([0, 10, 20] : List ℝ) 30 = 1 := by
    rw [findSeg, if_neg (by norm_num : ¬ (30 : ℝ) < 10),
      findSeg_short _ _ (by norm_num)]
  have h30 : (API_D86_TBP exShort).1.eval 30 = 96 + 400 / 101 := by
    show pchipEval (exShort.map Prod.fst) (exShort.map Prod.snd) 30 = 96 + 400 / 101
    rw [hxs, hys]
    simp only [pchipEval]
    rw [hseg30]
    norm_num [List.getD_cons_zero, List.getD_cons_succ, hd1, hd2]
    simp only [hermite]
    norm_num
  refine ⟨by norm_num [exShort, StrIncr, List.chain'_cons],
    by norm_num [exShort, StrIncr, List.chain'_cons], ?_,
    by norm_num, by norm_num, by norm_num, ?_⟩
  · intro p hp
    simp only [exShort, List.mem_cons, List.not_mem_nil, or_false] at hp
    rcases hp with rfl | rfl | rfl <;> norm_num
  · rw [h20, h30]
    norm_num

/-! ## Affine equivariance of PCHIP (for claim C4)

`VABP_`/`MeABP_` build a second interpolant over the Fahrenheit-converted
knot values instead of converting the interpolated Celsius value; these
agree because the whole PCHIP pipeline commutes with the increasing affine
map `t ↦ a·t + b` (`a > 0`) applied to the data values. -/

theorem sgn_mul_pos (a : ℝ) (ha : 0 < a) (x : ℝ) : sgn (a * x) = sgn x := by
  rcases lt_trichotomy x 0 with h | h | h
  · rw [sgn_of_neg h, sgn_of_neg (mul_neg_of_pos_of_neg ha h)]
  · rw [h, mul_zero]
  · rw [sgn_of_pos h, sgn_of_pos (mul_pos ha h)]

theorem mslope_affine (xs : List ℝ) {ys : List ℝ} (a b : ℝ) {k : ℕ}
    (hk : k + 1 < ys.length) :
    mslope xs (ys.map (fun t => a * t + b)) k = a * mslope xs ys k := by
  rw [mslope, mslope, getD_map_of_lt _ _ hk, getD_map_of_lt _ _ (by omega)]
  ring

theorem edgeDeriv_affine (h0 h1 m0 m1 a : ℝ) (ha : 0 < a) :
    edgeDeriv h0 h1 (a * m0) (a * m1) = a * edgeDeriv h0 h1 m0 m1 := by
  have hd : ((2 * h0 + h1) * (a * m0) - h0 * (a * m1)) / (h0 + h1) =
      a * (((2 * h0 + h1) * m0 - h0 * m1) / (h0 + h1)) := by
    rw [← mul_div_assoc]
    congr 1
    ring
  simp only [edgeDeriv]
  rw [hd, sgn_mul_pos a ha, sgn_mul_pos a ha, sgn_mul_pos a ha]
  by_cases h1c : sgn (((2 * h0 + h1) * m0 - h0 * m1) / (h0 + h1)) ≠ sgn m0
  · rw [if_pos h1c, if_pos h1c, mul_zero]
  · rw [if_neg h1c, if_neg h1c]
    by_cases hs : sgn m0 ≠ sgn m1
    · by_cases hlt : 3 * |m0| < |((2 * h0 + h1) * m0 - h0 * m1) / (h0 + h1)|
      · rw [if_pos ⟨hs, by
            rw [abs_mul, abs_mul, abs_of_pos ha]
            have := mul_lt_mul_of_pos_left hlt ha
            linarith⟩,
          if_pos ⟨hs, hlt⟩]
        ring
      · rw [if_neg (fun hc => hlt (by
            have h2 := hc.2
            rw [abs_mul, abs_mul, abs_of_pos ha] at h2
            nlinarith [h2, ha])),
          if_neg (fun hc => hlt hc.2)]
    · rw [if_neg (fun hc => hs hc.1), if_neg (fun hc => hs hc.1)]

theorem interiorDeriv_affine (hkm hk mkm mk a : ℝ) (ha : 0 < a) :
    interiorDeriv hkm hk (a * mkm) (a * mk) = a * interiorDeriv hkm hk mkm mk := by
  simp only [interiorDeriv]
  by_cases hc : sgn mk ≠ sgn mkm ∨ mk = 0 ∨ mkm = 0
  · rw [if_pos hc, if_pos, mul_zero]
    rcases hc with h | h | h
    · exact Or.inl (by rw [sgn_mul_pos a ha, sgn_mul_pos a ha]; exact h)
    · exact Or.inr (Or.inl (by rw [h, mul_zero]))
    · exact Or.inr (Or.inr (by rw [h, mul_zero]))
  · push_neg at hc
    rw [if_neg, if_neg (by
      push_neg
      exact ⟨hc.1, hc.2.1, hc.2.2⟩)]
    · have e : (2 * hk + hkm) / (a * mkm) + (hk + 2 * hkm) / (a * mk) =
          ((2 * hk + hkm) / mkm + (hk + 2 * hkm) / mk) / a := by
        rw [div_mul_eq_div_div_swap, div_mul_eq_div_div_swap, div_add_div_same]
      rw [e, div_div_eq_mul_div]
      ring
    · push_neg
      refine ⟨by rw [sgn_mul_pos a ha, sgn_mul_pos a ha]; exact hc.1, ?_, ?_⟩
      · exact mul_ne_zero (ne_of_gt ha) hc.2.1
      · exact mul_ne_zero (ne_of_gt ha) hc.2.2

theorem pchipDeriv_affine {xs ys : List ℝ} (a b : ℝ) (ha : 0 < a)
    (hlen : ys.length = xs.length) (hn : 2 ≤ xs.length) {k : ℕ} (hk : k < xs.length) :
    pchipDeriv xs (ys.map (fun t => a * t + b)) k = a * pchipDeriv xs ys k := by
  simp only [pchipDeriv]
  by_cases h2 : xs.length = 2
  · rw [if_pos h2, if_pos h2, mslope_affine xs a b (by omega)]
  · rw [if_neg h2, if_neg h2]
    by_cases hk0 : k = 0
    · rw [if_pos hk0, if_pos hk0, mslope_affine xs a b (k := 0) (by omega),
        mslope_affine xs a b (k := 1) (by omega), edgeDeriv_affine _ _ _ _ _ ha]
    · rw [if_neg hk0, if_neg hk0]
      by_cases hkl : k = xs.length - 1
      · rw [if_pos hkl, if_pos hkl, mslope_affine xs a b (k := xs.length - 2) (by omega),
          mslope_affine xs a b (k := xs.length - 3) (by omega),
          edgeDeriv_affine _ _ _ _ _ ha]
      · rw [if_neg hkl, if_neg hkl, mslope_affine xs a b (k := k - 1) (by omega),
          mslope_affine xs a b (k := k) (by omega), interiorDeriv_affine _ _ _ _ _ ha]

theorem hermite_affine (xa ya da xb yb db v a b : ℝ) :
    hermite xa (a * ya + b) (a * da) xb (a * yb + b) (a * db) v =
      a * hermite xa ya da xb yb db v + b := by
  simp only [hermite]
  ring

/-- The PCHIP interpolant commutes with increasing affine maps of the data
values. -/
theorem pchipEval_affine {xs ys : List ℝ} (a b : ℝ) (ha : 0 < a)
    (hlen : ys.length = xs.length) (hn : 2 ≤ xs.length) (v : ℝ) :
    pchipEval xs (ys.map (fun t => a * t + b)) v = a * pchipEval xs ys v + b := by
  have hle := findSeg_le xs v
  simp only [pchipEval]
  rw [getD_map_of_lt _ _ (show findSeg xs v < ys.length by omega),
    getD_map_of_lt _ _ (show findSeg xs v + 1 < ys.length by omega),
    pchipDeriv_affine a b ha hlen hn (show findSeg xs v < xs.length by omega),
    pchipDeriv_affine a b ha hlen hn (show findSeg xs v + 1 < xs.length by omega),
    hermite_affine]

/-! ## Claim C4 -/

/-- C4: for every constructed sample the derived scalars satisfy the
spec formulas: `VABP` is the mean of the Fahrenheit-converted D86 curve
values at 10/30/50/70/90, `MeABP` subtracts the slope-dependent exponential
with `slope = (D86_F(90) - D86_F(10))/80`, `SG = density/999.013`, and
`WatsonK = (MeABP + 460)^(1/3) / SG`. -/
theorem sample_properties (pts : List (ℝ × ℝ)) (Density : ℝ) (hn : 2 ≤ pts.length) :
    VABP_ pts =
      (CtoF (pchipEval (pts.map Prod.fst) (pts.map Prod.snd) 10) +
        CtoF (pchipEval (pts.map Prod.fst) (pts.map Prod.snd) 30) +
        CtoF (pchipEval (pts.map Prod.fst) (pts.map Prod.snd) 50) +
        CtoF (pchipEval (pts.map Prod.fst) (pts.map Prod.snd) 70) +
        CtoF (pchipEval (pts.map Prod.fst) (pts.map Prod.snd) 90)) / 5 ∧
    MeABP_ pts = VABP_ pts -
      Real.exp (-0.94402 - 0.00865 * (VABP_ pts - 32) ^ (0.6667 : ℝ) +
        2.99791 * ((CtoF (pchipEval (pts.map Prod.fst) (pts.map Prod.snd) 90) -
          CtoF (pchipEval (pts.map Prod.fst) (pts.map Prod.snd) 10)) / 80) ^
            (0.333 : ℝ)) ∧
    SG_ Density = Density / 999.013 ∧
    WatsonK_ pts Density = (MeABP_ pts + 460) ^ ((1 : ℝ) / 3) / SG_ Density := by
  have hlen2 : (pts.map Prod.snd).length = (pts.map Prod.fst).length := by simp
  have hnx : 2 ≤ (pts.map Prod.fst).length := by simpa using hn
  have hfn : (pts.map Prod.snd).map CtoF =
      (pts.map Prod.snd).map (fun t => (9 / 5 : ℝ) * t + 32) := by
    apply List.map_congr_left
    intro t _
    rw [CtoF]
    norm_num
    ring
  have haff : ∀ v, pchipEval (pts.map Prod.fst) ((pts.map Prod.snd).map CtoF) v =
      CtoF (pchipEval (pts.map Prod.fst) (pts.map Prod.snd) v) := by
    intro v
    rw [hfn, pchipEval_affine _ _ (by norm_num) hlen2 hnx v, CtoF]
    norm_num
    ring
  refine ⟨?_, ?_, rfl, rfl⟩
  · simp only [VABP_, haff]
  · simp only [MeABP_, VABP_, haff]
    norm_num

/-- Witness for C4 at a concrete three-point sample with density 820. -/
theorem sample_properties_witness :
    SG_ 820 = 820 / 999.013 :=
  (sample_properties [((0 : ℝ), (160 : ℝ)), (50, 225), (100, 290)] 820
    (by norm_num)).2.2.1

end BpConversions
